import Mathlib

/-!
Verification of the build-time snapshot hook in `src/build.rs`.

The development shallowly embeds the two nontrivial parts of the script —
the configuration parser `parse_config` and the directory mirror
`copy_files_to_changelog` — together with the logging helper `log` and the
control flow of `main`, and proves the spec's testable properties about them.

Modelling conventions:
  - Rust `&str` / `String` values are embedded as `List Char` (`Str` below);
    `str::trim` is embedded for the ASCII whitespace characters, which covers
    every input the spec and the repository exercise.
  - A Rust panic is embedded as `Except.error msg`; normal results as
    `Except.ok`.
  - The log sink `Option<std::fs::File>` is embedded as `Option (List Str)`:
    `some msgs` is an open file holding the lines written so far, `none` is an
    absent sink.  Writing to the file is assumed to succeed (the Rust code
    ignores write errors apart from printing to a stdout nobody sees).
  - The filesystem seen by the mirror is embedded as a tree of named nodes;
    OS-level failure modes of `fs::copy` / `DirBuilder::create` that the code
    ignores or merely logs are abstracted as success, and the external
    `git check-ignore` call is abstracted as a pure predicate on the relative
    path handed to it, which is exactly the data the code passes to it.
-/

/-! Definitions: the embedding of `src/build.rs`. -/

/-- Rust string slices, embedded as lists of characters. -/
abbrev Str := List Char

/-- ASCII whitespace, the fragment of Rust's `char::is_whitespace` relevant
to the inputs considered here. -/
def isWs (c : Char) : Bool :=
  c = ' ' || c = '\t' || c = '\n' || c = '\r'

/-- Rust `str::trim`: remove leading and trailing whitespace. -/
def trim (s : Str) : Str :=
  ((s.dropWhile isWs).reverse.dropWhile isWs).reverse

/-- Rust `str::split(sep)` for a one-character pattern: the list of
(possibly empty) chunks between occurrences of `sep`.  As in Rust,
splitting the empty string yields one empty chunk. -/
def splitOnChar (sep : Char) : Str → List Str
  | [] => [[]]
  | c :: rest =>
    if c = sep then [] :: splitOnChar sep rest
    else
      match splitOnChar sep rest with
      | [] => [[c]]
      | s :: ss => (c :: s) :: ss

/-- Rust `Vec::join(sep)` for one-character separators (used by the parser's
diagnostic message, which reassembles the offending segment). -/
def joinWith (sep : Char) : List Str → Str
  | [] => []
  | [s] => s
  | s :: rest => s ++ sep :: joinWith sep rest

/-- The `Config` struct of `src/build.rs`. -/
structure Config where
  participant_id : Str
  git_password : Str
  project : Str
deriving DecidableEq

/-- The `log_file: Option<std::fs::File>` handle: `some msgs` is an open
log file containing the lines `msgs`, `none` is an absent sink. -/
abbrev LogFile := Option (List Str)

/-- `log` from `src/build.rs`: appends the message to the sink when one is
present and panics (`panic!("failed to write log")`) when the sink is
absent. -/
def log (log_file : LogFile) (msg : Str) : Except Str LogFile :=
  match log_file with
  | some msgs => .ok (some (msgs ++ [msg]))
  | none => .error "failed to write log".data

/-- The `for elt in comma_split` loop of `parse_config`, carrying the three
mutable `Option` locals.  A segment that does not split into exactly two
parts on `':'` logs two diagnostics and makes the whole function return
`None` (modelled by the inner `none`); otherwise the three non-exclusive
`if` statements update the locals with the trimmed value. -/
def parseLoop (log_file : LogFile) (id pwd proj : Option Str) :
    List Str → Except Str (LogFile × Option (Option Str × Option Str × Option Str))
  | [] => .ok (log_file, some (id, pwd, proj))
  | elt :: rest =>
    let assign_split := splitOnChar ':' elt
    if assign_split.length ≠ 2 then
      match log log_file "failed to parse config.txt".data with
      | .error e => .error e
      | .ok lf =>
        match log lf (joinWith ':' assign_split) with
        | .error e => .error e
        | .ok lf' => .ok (lf', none)
    else
      let id' := if trim (assign_split.headD []) = "participant_id".data
                 then some (trim (assign_split.getD 1 [])) else id
      let pwd' := if trim (assign_split.headD []) = "git_password".data
                  then some (trim (assign_split.getD 1 [])) else pwd
      let proj' := if trim (assign_split.headD []) = "project".data
                   then some (trim (assign_split.getD 1 [])) else proj
      parseLoop log_file id' pwd' proj' rest

/-- `parse_config` from `src/build.rs`: split the text on `','`, run the
segment loop, then check the three locals in order, logging a "missing"
diagnostic and returning `None` for the first absent one, and otherwise
build the `Config` from the three trimmed values. -/
def parse_config (log_file : LogFile) (text : Str) :
    Except Str (LogFile × Option Config) :=
  match parseLoop log_file none none none (splitOnChar ',' text) with
  | .error e => .error e
  | .ok (lf, none) => .ok (lf, none)
  | .ok (lf, some (id, pwd, proj)) =>
    match id with
    | none =>
      match log lf "failed to parse config.txt: missing participant_id".data with
      | .error e => .error e
      | .ok lf' => .ok (lf', none)
    | some idv =>
      match pwd with
      | none =>
        match log lf "failed to parse config.txt: missing git_password".data with
        | .error e => .error e
        | .ok lf' => .ok (lf', none)
      | some pwdv =>
        match proj with
        | none =>
          match log lf "failed to parse config.txt: missing project".data with
          | .error e => .error e
          | .ok lf' => .ok (lf', none)
        | some projv => .ok (lf, some ⟨idv, pwdv, projv⟩)

/-- The colon-split of a comma-segment (`assign_split` in the source). -/
def segParts (seg : Str) : List Str := splitOnChar ':' seg

/-- The trimmed key of a comma-segment (`assign_split[0].trim()`). -/
def segKey (seg : Str) : Str := trim ((segParts seg).headD [])

/-- The trimmed value of a comma-segment (`assign_split[1].trim()`). -/
def segVal (seg : Str) : Str := trim ((segParts seg).getD 1 [])

/-- A comma-segment is well-formed when it splits into exactly two parts. -/
def segWf (seg : Str) : Bool := (segParts seg).length == 2

/-- The pure effect of one loop iteration on the `(id, pwd, proj)` state,
for a well-formed segment. -/
def stepPure (st : Option Str × Option Str × Option Str) (seg : Str) :
    Option Str × Option Str × Option Str :=
  (if segKey seg = "participant_id".data then some (segVal seg) else st.1,
   if segKey seg = "git_password".data then some (segVal seg) else st.2.1,
   if segKey seg = "project".data then some (segVal seg) else st.2.2)

/-- The `(id, pwd, proj)` state after the loop, assuming every segment is
well-formed. -/
def pureState (text : Str) : Option Str × Option Str × Option Str :=
  (splitOnChar ',' text).foldl stepPure (none, none, none)

/-- All comma-segments of the text are well-formed. -/
def allWf (text : Str) : Bool := (splitOnChar ',' text).all segWf

/-- The per-field update performed by a well-formed segment. -/
def updField (key : Str) (acc : Option Str) (s : Str) : Option Str :=
  if segKey s = key then some (segVal s) else acc

/-- A filesystem node below the manifest directory: a file with its byte
content, or a directory with its named entries (in `read_dir` order). -/
inductive Node where
  | file (content : Str)
  | dir (entries : List (Str × Node))

/-- The state of the destination (`changelog`) tree: the set of directories
created and a map from relative path to file content, both keyed by paths
relative to the changelog root. -/
structure Dest where
  dirs : List (List Str)
  files : List (List Str × Str)
deriving DecidableEq

/-- Overwrite-or-append for the file map: `fs::copy` truncates an existing
destination file and creates a missing one. -/
def assocPut : List (List Str × Str) → List Str → Str → List (List Str × Str)
  | [], p, c => [(p, c)]
  | (k, v) :: rest, p, c =>
    if k = p then (p, c) :: rest else (k, v) :: assocPut rest p c

/-- `DirBuilder::new().create(...)` with the error ignored: a new directory
is recorded, an existing one is left as is. -/
def Dest.createDir (d : Dest) (p : List Str) : Dest :=
  if p ∈ d.dirs then d else ⟨d.dirs ++ [p], d.files⟩

/-- `fs::copy(path, dest_path)` abstracted as an overwriting write. -/
def Dest.writeFile (d : Dest) (p : List Str) (c : Str) : Dest :=
  ⟨d.dirs, assocPut d.files p c⟩

/-- Content of the destination file at `p`, if any. -/
def findVal (p : List Str) : List (List Str × Str) → Option Str
  | [] => none
  | (k, v) :: rest => if k = p then some v else findVal p rest

/-- `Path::strip_prefix`: drop `root` from the front of a path, failing when
`root` is not a component-wise front of it. -/
def relativeTo : List Str → List Str → Option (List Str)
  | [], p => some p
  | _ :: _, [] => none
  | r :: rs, c :: cs => if c = r then relativeTo rs cs else none

/-- `Path::to_str` for the absolute path handed to `log`. -/
def pathMsg (p : List Str) : Str := '/' :: joinWith '/' p

/-- `copy_files_to_changelog` from `src/build.rs`, one call per directory
listing.  `ign` is the external `git check-ignore` oracle applied to the
relative path the code passes to it; `dirPath` is the directory whose
entries are being enumerated (the manifest root at the top call); `root` is
`CARGO_MANIFEST_DIR`.  Per entry, in source order: the `.git`/`changelog`
name check, the `strip_prefix` whose result line 108 unwraps (a panic when
it failed), the ignore check, the `log` of the entry path, the second
`strip_prefix` with its `continue` on error, and then the recursive copy
for a directory or the overwriting file copy. -/
def copyEntries (ign : List Str → Bool) (root : List Str) :
    List Str → List (Str × Node) → LogFile → Dest → Except Str (LogFile × Dest)
  | _, [], lf, dest => .ok (lf, dest)
  | dirPath, (name, node) :: rest, lf, dest =>
    if name = ".git".data ∨ name = "changelog".data then
      copyEntries ign root dirPath rest lf dest
    else
      match relativeTo root (dirPath ++ [name]) with
      | none => .error "called Result::unwrap on an Err value".data
      | some pruned =>
        if ign pruned then copyEntries ign root dirPath rest lf dest
        else
          match log lf (pathMsg (dirPath ++ [name])) with
          | .error e => .error e
          | .ok lf1 =>
            match relativeTo root (dirPath ++ [name]) with
            | none => copyEntries ign root dirPath rest lf1 dest
            | some stripped =>
              match node with
              | .dir inner =>
                match copyEntries ign root (dirPath ++ [name]) inner lf1
                    (dest.createDir stripped) with
                | .error e => .error e
                | .ok (lf2, dest2) => copyEntries ign root dirPath rest lf2 dest2
              | .file content =>
                copyEntries ign root dirPath rest lf1 (dest.writeFile stripped content)

/-- The effect of one mirror step on the destination tree. -/
inductive MirrorOp where
  | mkdirOp (p : List Str)
  | copyOp (p : List Str) (c : Str)

/-- Apply one mirror step. -/
def applyOp (d : Dest) : MirrorOp → Dest
  | .mkdirOp p => d.createDir p
  | .copyOp p c => d.writeFile p c

/-- Apply a sequence of mirror steps, left to right. -/
def applyOps (d : Dest) : List MirrorOp → Dest := List.foldl applyOp d

/-- The sequence of destination writes a traversal performs, read off the
structure of `copyEntries`; the traversal's effect on the destination is
exactly `applyOps` of this list (proved below), and the list does not
depend on the destination or on the log sink. -/

def opsOf (ign : List Str → Bool) (root : List Str) :
    List Str → List (Str × Node) → List MirrorOp
  | _, [] => []
  | dirPath, (name, node) :: rest =>
    if name = ".git".data ∨ name = "changelog".data then opsOf ign root dirPath rest
    else
      match relativeTo root (dirPath ++ [name]) with
      | none => []
      | some pruned =>
        if ign pruned then opsOf ign root dirPath rest
        else
          match node with
          | .dir inner =>
            .mkdirOp pruned ::
              (opsOf ign root (dirPath ++ [name]) inner ++ opsOf ign root dirPath rest)
          | .file content => .copyOp pruned content :: opsOf ign root dirPath rest

/-- First-`some` choice on optional file contents. -/
def orD (o o₂ : Option Str) : Option Str :=
  match o with
  | some v => some v
  | none => o₂

/-- The last content written to file path `p` by a sequence of steps. -/
def lastCopy (p : List Str) : List MirrorOp → Option Str
  | [] => none
  | .mkdirOp _ :: ops => lastCopy p ops
  | .copyOp k c :: ops => orD (lastCopy p ops) (if k = p then some c else none)

/-- The directory paths a sequence of steps creates. -/
def mkdirPaths : List MirrorOp → List (List Str)
  | [] => []
  | .mkdirOp p :: ops => p :: mkdirPaths ops
  | .copyOp _ _ :: ops => mkdirPaths ops

/-- The destination path a mirror step touches. -/
def opPath : MirrorOp → List Str
  | .mkdirOp p => p
  | .copyOp p _ => p

/-- The environment a run of the build script sees.  `config_text` is the
content of `config.txt` when it can be opened and read (`none` covers both
an absent and an unreadable file); `manifest_entries` is the listing of
`CARGO_MANIFEST_DIR`; `changelog_preexists` records whether
`create_dir(changelog)` fails because the directory is already there;
external `git`/`rustc` invocations that `main` only `expect`s on are
assumed to run. -/
structure Env where
  log_openable : Bool
  manifest_dir_readable : Bool
  manifest_path : List Str
  manifest_entries : List (Str × Node)
  config_text : Option Str
  changelog_preexists : Bool
  ignored : List Str → Bool
  dest0 : Dest
  rustc_version : Str

/-- How a run of `main` ends: a panic with its message, an early `return`
(no mirroring), or a completed run with the final changelog tree. -/
inductive Outcome where
  | panicked (msg : Str)
  | earlyReturn
  | finished (dest : Dest)
deriving DecidableEq

/-- Sequence a `log` call inside `main`, turning a logging panic into a
panicked outcome. -/
def logThen (lf : LogFile) (msg : Str) (k : LogFile → Outcome) : Outcome :=
  match log lf msg with
  | .error e => .panicked e
  | .ok lf' => k lf'

/-- The tail of `main` after the bootstrap block: "copying files...",
`copy_files_to_changelog` over the manifest listing, `write_rustc_version`
(a `writeln!` appends a newline), then the commit and push steps whose
failures are only logged. -/
def mainRest (env : Env) (lf : LogFile) : Outcome :=
  logThen lf "copying files...".data fun lf' =>
    match copyEntries env.ignored env.manifest_path env.manifest_path
        env.manifest_entries lf' env.dest0 with
    | .error e => .panicked e
    | .ok (lf'', d) =>
      let d' := d.writeFile ["rustc.version".data] (env.rustc_version ++ ['\n'])
      logThen lf'' "committing to git...".data fun lf3 =>
        logThen lf3 "pushing...".data fun _ => .finished d'

/-- `main` from `src/build.rs`.  In source order: `open_log` (an `expect`
panic when the log file cannot be created; `DEBUG` is `true` so the sink is
always present afterwards), the `read_dir` check that merely prints and
returns, `read_config` (silent skip when `config.txt` is missing or its
parse fails), the `create_dir` bootstrap with `git init`, the
`project`-emptiness panic and `git remote add` on a fresh directory, and
then the copy/commit/push tail. -/
def mainModel (env : Env) : Outcome :=
  if env.log_openable = false then
    .panicked "Couldn't open log file for writing".data
  else
    logThen (some []) "opened log...".data fun lf =>
      if env.manifest_dir_readable = false then .earlyReturn
      else
        match env.config_text with
        | none => logThen lf "failed to open config.txt".data fun _ => .earlyReturn
        | some text =>
          match parse_config lf text with
          | .error e => .panicked e
          | .ok (_, none) => .earlyReturn
          | .ok (lf1, some config) =>
            logThen lf1 "creating directory...".data fun lf2 =>
              if env.changelog_preexists = true then mainRest env lf2
              else
                logThen lf2 "project: ".data fun lf3 =>
                  logThen lf3 config.project fun lf4 =>
                    if config.project.length = 0 then
                      .panicked "Project not specified in config.txt".data
                    else mainRest env lf4

/-- A concrete environment whose configuration has an empty
`participant_id` (the segment `participant_id:` carries an empty value). -/
def envEmptyParticipant : Env where
  log_openable := true
  manifest_dir_readable := true
  manifest_path := []
  manifest_entries := []
  config_text := some "participant_id:, git_password: x, project: p1".data
  changelog_preexists := false
  ignored := fun _ => false
  dest0 := ⟨[], []⟩
  rustc_version := "rustc 1.70.0".data

/-- A concrete environment whose configuration has an empty `project`
value and a non-empty `participant_id`. -/
def envEmptyProject : Env where
  log_openable := true
  manifest_dir_readable := true
  manifest_path := []
  manifest_entries := []
  config_text := some "participant_id: 5, git_password: x, project:".data
  changelog_preexists := false
  ignored := fun _ => false
  dest0 := ⟨[], []⟩
  rustc_version := []

/-- A concrete environment whose manifest directory cannot be read. -/
def envManifestUnreadable : Env where
  log_openable := true
  manifest_dir_readable := false
  manifest_path := []
  manifest_entries := []
  config_text := none
  changelog_preexists := false
  ignored := fun _ => false
  dest0 := ⟨[], []⟩
  rustc_version := []

/-- A concrete environment whose log sink cannot be opened. -/
def envNoLogSink : Env where
  log_openable := false
  manifest_dir_readable := true
  manifest_path := []
  manifest_entries := []
  config_text := none
  changelog_preexists := false
  ignored := fun _ => false
  dest0 := ⟨[], []⟩
  rustc_version := []

/-- A concrete environment whose configuration has `project: ` with an
all-whitespace value, trimmed to empty. -/
def envBlankProject : Env where
  log_openable := true
  manifest_dir_readable := true
  manifest_path := []
  manifest_entries := []
  config_text := some "participant_id: 5, git_password: x, project: ".data
  changelog_preexists := false
  ignored := fun _ => false
  dest0 := ⟨[], []⟩
  rustc_version := ['v']

/-! Theorems. -/

example : segKey " project: a".data = "project".data := by decide

example : segVal " project: a ".data = "a".data := by decide

example : segWf " project: a:b".data = false := by decide

example :
    parse_config (some []) "participant_id: 592089, git_password: 985613, project: p1".data
      = .ok (some [], some ⟨"592089".data, "985613".data, "p1".data⟩) := rfl

/-- When every segment is well-formed the loop never logs and computes the
pure fold, for any sink (present or absent). -/
theorem parseLoop_all_wf (segs : List Str) : ∀ (lf : LogFile) (id pwd proj : Option Str),
    (∀ s ∈ segs, segWf s = true) →
    parseLoop lf id pwd proj segs = .ok (lf, some (segs.foldl stepPure (id, pwd, proj))) := by
  induction segs with
  | nil => intro lf id pwd proj _; rfl
  | cons seg rest ih =>
    intro lf id pwd proj h
    have hw : segWf seg = true := h seg (by simp)
    have hlen : (splitOnChar ':' seg).length = 2 := by
      simpa [segWf, segParts] using hw
    rw [parseLoop]
    simp only [hlen, ne_eq, not_true_eq_false, if_false, reduceIte]
    rw [ih _ _ _ _ (fun s hs => h s (by simp [hs]))]
    rfl

/-- A malformed segment makes the loop return the early `None`, with the two
diagnostics appended to a present sink. -/
theorem parseLoop_bad (segs : List Str) : ∀ (l : List Str) (id pwd proj : Option Str),
    (∃ s ∈ segs, segWf s = false) →
    ∃ l', parseLoop (some l) id pwd proj segs = .ok (some l', none) := by
  induction segs with
  | nil => intro l id pwd proj h; simp at h
  | cons seg rest ih =>
    intro l id pwd proj h
    by_cases hw : segWf seg = true
    · have hlen : (splitOnChar ':' seg).length = 2 := by
        simpa [segWf, segParts] using hw
      obtain ⟨s, hs, hbad⟩ := h
      rw [List.mem_cons] at hs
      rcases hs with hs | hs
      · subst hs; rw [hw] at hbad; exact absurd hbad (by simp)
      · rw [parseLoop]
        simp only [hlen, ne_eq, not_true_eq_false, if_false, reduceIte]
        exact ih _ _ _ _ ⟨s, hs, hbad⟩
    · have hlen : (splitOnChar ':' seg).length ≠ 2 := by
        simp only [segWf, segParts, beq_iff_eq] at hw
        simpa using hw
      rw [parseLoop]
      rw [if_pos hlen]
      exact ⟨_, rfl⟩

/-- With an absent sink, a malformed segment makes the loop panic at its
first diagnostic. -/
theorem parseLoop_bad_none (segs : List Str) : ∀ (id pwd proj : Option Str),
    (∃ s ∈ segs, segWf s = false) →
    parseLoop none id pwd proj segs = .error "failed to write log".data := by
  induction segs with
  | nil => intro id pwd proj h; simp at h
  | cons seg rest ih =>
    intro id pwd proj h
    by_cases hw : segWf seg = true
    · have hlen : (splitOnChar ':' seg).length = 2 := by
        simpa [segWf, segParts] using hw
      obtain ⟨s, hs, hbad⟩ := h
      rw [List.mem_cons] at hs
      rcases hs with hs | hs
      · subst hs; rw [hw] at hbad; exact absurd hbad (by simp)
      · rw [parseLoop]
        simp only [hlen, ne_eq, not_true_eq_false, if_false, reduceIte]
        exact ih _ _ _ ⟨s, hs, hbad⟩
    · have hlen : (splitOnChar ':' seg).length ≠ 2 := by
        simp only [segWf, segParts, beq_iff_eq] at hw
        simpa using hw
      rw [parseLoop]
      rw [if_pos hlen]
      rfl

/-- With a present sink the loop always returns normally. -/
theorem parseLoop_total (segs : List Str) : ∀ (l : List Str) (id pwd proj : Option Str),
    ∃ l' r, parseLoop (some l) id pwd proj segs = .ok (some l', r) := by
  induction segs with
  | nil => intro l id pwd proj; exact ⟨l, _, rfl⟩
  | cons seg rest ih =>
    intro l id pwd proj
    by_cases hw : segWf seg = true
    · have hlen : (splitOnChar ':' seg).length = 2 := by
        simpa [segWf, segParts] using hw
      rw [parseLoop]
      simp only [hlen, ne_eq, not_true_eq_false, if_false, reduceIte]
      exact ih _ _ _ _
    · have hlen : (splitOnChar ':' seg).length ≠ 2 := by
        simp only [segWf, segParts, beq_iff_eq] at hw
        simpa using hw
      rw [parseLoop]
      rw [if_pos hlen]
      exact ⟨_, _, rfl⟩

/-- Any `Option` local that ends up `some` was set by some well-formed
segment whose trimmed key is the matching recognized key. -/
theorem parseLoop_fields (segs : List Str) : ∀ (lf : LogFile) (id pwd proj : Option Str)
    (lf' : LogFile) (id' pwd' proj' : Option Str),
    parseLoop lf id pwd proj segs = .ok (lf', some (id', pwd', proj')) →
    (id' = id ∨ ∃ s ∈ segs, segWf s = true ∧ segKey s = "participant_id".data ∧
        id' = some (segVal s)) ∧
    (pwd' = pwd ∨ ∃ s ∈ segs, segWf s = true ∧ segKey s = "git_password".data ∧
        pwd' = some (segVal s)) ∧
    (proj' = proj ∨ ∃ s ∈ segs, segWf s = true ∧ segKey s = "project".data ∧
        proj' = some (segVal s)) := by
  induction segs with
  | nil =>
    intro lf id pwd proj lf' id' pwd' proj' h
    rw [parseLoop] at h
    simp only [Except.ok.injEq, Prod.mk.injEq, Option.some.injEq] at h
    exact ⟨Or.inl h.2.1.symm, Or.inl h.2.2.1.symm, Or.inl h.2.2.2.symm⟩
  | cons seg rest ih =>
    intro lf id pwd proj lf' id' pwd' proj' h
    by_cases hw : segWf seg = true
    · have hlen : (splitOnChar ':' seg).length = 2 := by
        simpa [segWf, segParts] using hw
      rw [parseLoop] at h
      rw [if_neg (by simp [hlen])] at h
      have ihh := ih _ _ _ _ _ _ _ _ h
      refine ⟨?_, ?_, ?_⟩
      · rcases ihh.1 with h1 | ⟨s, hs, h2⟩
        · by_cases hc : trim ((splitOnChar ':' seg).headD []) = "participant_id".data
          · rw [if_pos hc] at h1
            exact Or.inr ⟨seg, by simp, hw, hc, h1⟩
          · rw [if_neg hc] at h1
            exact Or.inl h1
        · exact Or.inr ⟨s, by simp [hs], h2⟩
      · rcases ihh.2.1 with h1 | ⟨s, hs, h2⟩
        · by_cases hc : trim ((splitOnChar ':' seg).headD []) = "git_password".data
          · rw [if_pos hc] at h1
            exact Or.inr ⟨seg, by simp, hw, hc, h1⟩
          · rw [if_neg hc] at h1
            exact Or.inl h1
        · exact Or.inr ⟨s, by simp [hs], h2⟩
      · rcases ihh.2.2 with h1 | ⟨s, hs, h2⟩
        · by_cases hc : trim ((splitOnChar ':' seg).headD []) = "project".data
          · rw [if_pos hc] at h1
            exact Or.inr ⟨seg, by simp, hw, hc, h1⟩
          · rw [if_neg hc] at h1
            exact Or.inl h1
        · exact Or.inr ⟨s, by simp [hs], h2⟩
    · have hlen : (splitOnChar ':' seg).length ≠ 2 := by
        simp only [segWf, segParts, beq_iff_eq] at hw
        simpa using hw
      rw [parseLoop, if_pos hlen] at h
      cases lf with
      | some msgs => simp [log] at h
      | none => simp [log] at h

/-- With every segment well-formed and all three locals set, `parse_config`
succeeds with no further logging, for any sink. -/
theorem parse_config_ok_of_wf (text : Str) (lf : LogFile) (a b c : Str)
    (hwf : ∀ s ∈ splitOnChar ',' text, segWf s = true)
    (hst : pureState text = (some a, some b, some c)) :
    parse_config lf text = .ok (lf, some ⟨a, b, c⟩) := by
  have hst' : (splitOnChar ',' text).foldl stepPure (none, none, none)
      = (some a, some b, some c) := hst
  rw [parse_config, parseLoop_all_wf _ _ _ _ _ hwf, hst']

/-- A malformed segment makes `parse_config` return `None` (sink present). -/
theorem parse_config_none_of_bad (text : Str) (l : List Str)
    (h : ∃ s ∈ splitOnChar ',' text, segWf s = false) :
    ∃ l', parse_config (some l) text = .ok (some l', none) := by
  obtain ⟨l', hl⟩ := parseLoop_bad _ _ none none none h
  exact ⟨l', by rw [parse_config, hl]⟩

/-- With a present sink `parse_config` always returns normally. -/
theorem parse_config_total_aux (text : Str) (l : List Str) :
    ∃ l' r, parse_config (some l) text = .ok (some l', r) := by
  obtain ⟨l', r, hl⟩ := parseLoop_total (splitOnChar ',' text) l none none none
  rw [parse_config, hl]
  cases r with
  | none => exact ⟨l', none, rfl⟩
  | some st =>
    obtain ⟨id, pwd, proj⟩ := st
    cases id <;> cases pwd <;> cases proj <;> exact ⟨_, _, rfl⟩

/-- When a sink-present run of `parse_config` fails (returns `None`), the
same input with no sink reaches a `log` call and hence panics. -/
theorem parse_config_none_sink_panics (text : Str) (l l' : List Str)
    (h : parse_config (some l) text = .ok (some l', none)) :
    parse_config none text = .error "failed to write log".data := by
  by_cases hwf : ∀ s ∈ splitOnChar ',' text, segWf s = true
  · have hloop := parseLoop_all_wf (splitOnChar ',' text) (some l) none none none hwf
    rw [parse_config, hloop] at h
    have hloopn := parseLoop_all_wf (splitOnChar ',' text) none none none none hwf
    rw [parse_config, hloopn]
    rcases hst : (splitOnChar ',' text).foldl stepPure (none, none, none) with ⟨id, pwd, proj⟩
    rw [hst] at h
    cases id <;> cases pwd <;> cases proj <;> first | rfl | simp [log] at h
  · rw [parse_config]
    have hbad : ∃ s ∈ splitOnChar ',' text, segWf s = false := by
      push_neg at hwf
      obtain ⟨s, hs, hne⟩ := hwf
      exact ⟨s, hs, by simpa using hne⟩
    rw [parseLoop_bad_none _ none none none hbad]

/-- The triple fold is the triple of per-field folds. -/
theorem foldl_stepPure_proj (l : List Str) : ∀ st : Option Str × Option Str × Option Str,
    l.foldl stepPure st =
      (l.foldl (updField "participant_id".data) st.1,
       l.foldl (updField "git_password".data) st.2.1,
       l.foldl (updField "project".data) st.2.2) := by
  induction l with
  | nil => intro st; rfl
  | cons s rest ih => intro st; rw [List.foldl_cons, ih]; rfl

/-- A fold over segments none of which carries the key leaves the
accumulator unchanged. -/
theorem foldl_updField_of_zero (key : Str) : ∀ (l : List Str) (a : Option Str),
    (∀ s ∈ l, ¬ segKey s = key) → l.foldl (updField key) a = a := by
  intro l
  induction l with
  | nil => intro a _; rfl
  | cons s rest ih =>
    intro a h
    rw [List.foldl_cons]
    rw [show updField key a s = a from if_neg (h s (by simp))]
    exact ih a (fun x hx => h x (by simp [hx]))

/-- When exactly one segment carries the key, the per-field fold returns
that segment's trimmed value, whatever the initial accumulator. -/
theorem foldl_updField_of_unique (key : Str) : ∀ (l : List Str) (x : Str) (a : Option Str),
    l.countP (fun s => segKey s == key) = 1 → x ∈ l → segKey x = key →
    l.foldl (updField key) a = some (segVal x) := by
  intro l
  induction l with
  | nil => intro x a _ hx _; simp at hx
  | cons s rest ih =>
    intro x a hcount hx hkey
    rw [List.countP_cons] at hcount
    by_cases hs : segKey s = key
    · have h0 : rest.countP (fun s => segKey s == key) = 0 := by
        simp only [hs, beq_self_eq_true, if_true, reduceIte] at hcount
        omega
      have hx_eq : x = s := by
        rcases List.mem_cons.mp hx with h | h
        · exact h
        · exact absurd (by simpa using hkey)
            (by simpa using List.countP_eq_zero.mp h0 x h)
      rw [List.foldl_cons, show updField key a s = some (segVal s) from if_pos hs]
      rw [foldl_updField_of_zero key rest (some (segVal s))
        (fun y hy => by simpa using List.countP_eq_zero.mp h0 y hy)]
      rw [hx_eq]
    · have hbeq : (segKey s == key) = false := by simpa using hs
      have h1 : rest.countP (fun s => segKey s == key) = 1 := by
        simp only [hbeq, if_false, reduceIte] at hcount
        simpa using hcount
      have hx' : x ∈ rest := by
        rcases List.mem_cons.mp hx with h | h
        · exact absurd (h ▸ hkey) hs
        · exact h
      rw [List.foldl_cons, show updField key a s = a from if_neg hs]
      exact ih x a h1 hx' hkey

example :
    copyEntries (fun _ => false) [] []
      [("a.rs".data, Node.file "x".data)] (some []) ⟨[], []⟩
      = .ok (some [pathMsg ["a.rs".data]], ⟨[], [(["a.rs".data], "x".data)]⟩) := by
  simp [copyEntries, relativeTo, log, Dest.writeFile, assocPut]

/-- Stripping a genuine front never fails. -/
theorem relativeTo_append : ∀ (r x : List Str), relativeTo r (r ++ x) = some x := by
  intro r
  induction r with
  | nil => intro x; rfl
  | cons a rs ih => intro x; simpa [relativeTo] using ih x

/-- Creating a directory never touches the file map. -/
theorem createDir_files (d : Dest) (p : List Str) : (d.createDir p).files = d.files := by
  rw [Dest.createDir]
  split <;> rfl

/-- Writing a file never touches the directory set. -/
theorem writeFile_dirs (d : Dest) (p : List Str) (c : Str) :
    (d.writeFile p c).dirs = d.dirs := rfl

/-- Lookup after an overwriting write. -/
theorem findVal_assocPut : ∀ (f : List (List Str × Str)) (k : List Str) (c : Str) (p : List Str),
    findVal p (assocPut f k c) = if k = p then some c else findVal p f := by
  intro f
  induction f with
  | nil => intro k c p; rfl
  | cons kv rest ih =>
    intro k c p
    obtain ⟨k0, v⟩ := kv
    rw [assocPut]
    by_cases h0 : k0 = k
    · rw [if_pos h0]
      by_cases hp : k = p
      · rw [findVal, if_pos hp, if_pos hp]
      · rw [findVal, if_neg hp, if_neg hp, findVal, if_neg (h0 ▸ hp)]
    · rw [if_neg h0, findVal, findVal]
      by_cases h0p : k0 = p
      · rw [if_pos h0p, if_pos h0p]
        rw [if_neg (fun hk => h0 (by rw [hk, h0p]))]
      · rw [if_neg h0p, if_neg h0p, ih]

/-- `applyOps` distributes over append. -/
theorem applyOps_append (d : Dest) (w₁ w₂ : List MirrorOp) :
    applyOps d (w₁ ++ w₂) = applyOps (applyOps d w₁) w₂ :=
  List.foldl_append applyOp d w₁ w₂

/-- File lookup after a sequence of steps: the last write to the path wins,
falling back to the initial tree. -/
theorem findVal_applyOps (p : List Str) : ∀ (w : List MirrorOp) (d : Dest),
    findVal p (applyOps d w).files = orD (lastCopy p w) (findVal p d.files) := by
  intro w
  induction w with
  | nil => intro d; rfl
  | cons op ops ih =>
    intro d
    cases op with
    | mkdirOp q =>
      have : applyOps d (MirrorOp.mkdirOp q :: ops) = applyOps (d.createDir q) ops := rfl
      rw [this, ih, lastCopy, createDir_files]
    | copyOp k c =>
      have : applyOps d (MirrorOp.copyOp k c :: ops) = applyOps (d.writeFile k c) ops := rfl
      rw [this, ih, lastCopy]
      show orD (lastCopy p ops) (findVal p (assocPut d.files k c)) = _
      rw [findVal_assocPut]
      cases lastCopy p ops <;> by_cases hk : k = p <;> simp [orD, hk]

/-- Membership in the directory set after one `create`. -/
theorem mem_dirs_createDir (d : Dest) (q p : List Str) :
    p ∈ (d.createDir q).dirs ↔ p = q ∨ p ∈ d.dirs := by
  rw [Dest.createDir]
  split
  · constructor
    · exact fun h => Or.inr h
    · rintro (h | h)
      · exact h ▸ (by assumption)
      · exact h
  · simp only [List.mem_append, List.mem_singleton]
    tauto

/-- Membership in the directory set after a sequence of steps. -/
theorem mem_dirs_applyOps (p : List Str) : ∀ (w : List MirrorOp) (d : Dest),
    p ∈ (applyOps d w).dirs ↔ p ∈ mkdirPaths w ∨ p ∈ d.dirs := by
  intro w
  induction w with
  | nil => intro d; simp [applyOps, mkdirPaths]
  | cons op ops ih =>
    intro d
    cases op with
    | mkdirOp q =>
      have : applyOps d (MirrorOp.mkdirOp q :: ops) = applyOps (d.createDir q) ops := rfl
      rw [this, ih, mkdirPaths, mem_dirs_createDir]
      simp only [List.mem_cons]
      tauto
    | copyOp k c =>
      have : applyOps d (MirrorOp.copyOp k c :: ops) = applyOps (d.writeFile k c) ops := rfl
      rw [this, ih, mkdirPaths, writeFile_dirs]

/-- Core characterization of the traversal: started with a present sink on a
directory under the manifest root, `copyEntries` returns normally and its
effect on the destination is `applyOps` of the `opsOf` write list, which
depends only on the source tree and the ignore oracle. -/
theorem copyEntries_ok (ign : List Str → Bool) (root : List Str) :
    ∀ (n : Nat) (entries : List (Str × Node)) (q : List Str) (l : List Str) (d : Dest),
      sizeOf entries ≤ n →
      ∃ l', copyEntries ign root (root ++ q) entries (some l) d
            = .ok (some l', applyOps d (opsOf ign root (root ++ q) entries)) := by
  intro n
  induction n with
  | zero =>
    intro entries q l d hsize
    exfalso
    cases entries with
    | nil => simp at hsize
    | cons e rest => simp [List.cons.sizeOf_spec] at hsize
  | succ n ih =>
    intro entries q l d hsize
    cases entries with
    | nil =>
      refine ⟨l, ?_⟩
      simp [copyEntries, opsOf, applyOps]
    | cons e rest =>
      obtain ⟨name, node⟩ := e
      have hrest : sizeOf rest ≤ n := by
        simp only [List.cons.sizeOf_spec, Prod.mk.sizeOf_spec] at hsize
        omega
      have hstrip : relativeTo root (root ++ (q ++ [name])) = some (q ++ [name]) :=
        relativeTo_append root (q ++ [name])
      cases node with
      | file content =>
        by_cases hskip : name = ".git".data ∨ name = "changelog".data
        · simp only [copyEntries, opsOf]
          rw [if_pos hskip, if_pos hskip]
          exact ih rest q l d hrest
        · simp only [copyEntries, opsOf]
          rw [if_neg hskip, if_neg hskip]
          rw [List.append_assoc root q [name]]
          simp only [hstrip]
          by_cases hign : ign (q ++ [name]) = true
          · rw [if_pos hign, if_pos hign]
            exact ih rest q l d hrest
          · rw [if_neg hign, if_neg hign]
            simp only [log]
            obtain ⟨l', h⟩ := ih rest q
              (l ++ [pathMsg (root ++ (q ++ [name]))])
              (d.writeFile (q ++ [name]) content) hrest
            exact ⟨l', by rw [h]; rfl⟩
      | dir inner =>
        have hinner : sizeOf inner ≤ n := by
          simp only [List.cons.sizeOf_spec, Prod.mk.sizeOf_spec,
            Node.dir.sizeOf_spec] at hsize
          omega
        by_cases hskip : name = ".git".data ∨ name = "changelog".data
        · simp only [copyEntries, opsOf]
          rw [if_pos hskip, if_pos hskip]
          exact ih rest q l d hrest
        · simp only [copyEntries, opsOf]
          rw [if_neg hskip, if_neg hskip]
          rw [List.append_assoc root q [name]]
          simp only [hstrip]
          by_cases hign : ign (q ++ [name]) = true
          · rw [if_pos hign, if_pos hign]
            exact ih rest q l d hrest
          · rw [if_neg hign, if_neg hign]
            simp only [log]
            obtain ⟨l₁, h₁⟩ := ih inner (q ++ [name])
              (l ++ [pathMsg (root ++ (q ++ [name]))])
              (d.createDir (q ++ [name])) hinner
            obtain ⟨l₂, h₂⟩ := ih rest q l₁
              (applyOps (d.createDir (q ++ [name]))
                (opsOf ign root (root ++ (q ++ [name])) inner)) hrest
            refine ⟨l₂, ?_⟩
            rw [h₁]
            have halign : applyOps d
                (MirrorOp.mkdirOp (q ++ [name]) ::
                  (opsOf ign root (root ++ (q ++ [name])) inner ++
                    opsOf ign root (root ++ q) rest))
                = applyOps (applyOps (d.createDir (q ++ [name]))
                    (opsOf ign root (root ++ (q ++ [name])) inner))
                    (opsOf ign root (root ++ q) rest) := by
              rw [← applyOps_append]
              rfl
            rw [halign]
            exact h₂

/-- `copyEntries_ok` without the size bookkeeping. -/
theorem copyEntries_applyOps (ign : List Str → Bool) (root : List Str)
    (entries : List (Str × Node)) (q : List Str) (l : List Str) (d : Dest) :
    ∃ l', copyEntries ign root (root ++ q) entries (some l) d
          = .ok (some l', applyOps d (opsOf ign root (root ++ q) entries)) :=
  copyEntries_ok ign root (sizeOf entries) entries q l d (le_refl _)

/-- The top-level call (directory listing of the manifest root itself). -/
theorem copyEntries_root (ign : List Str → Bool) (root : List Str)
    (entries : List (Str × Node)) (l : List Str) (d : Dest) :
    ∃ l', copyEntries ign root root entries (some l) d
          = .ok (some l', applyOps d (opsOf ign root root entries)) := by
  have h := copyEntries_applyOps ign root entries [] l d
  simpa using h

/-- Every write of a traversal under `root ++ q` targets a path below `q`
whose next component is the name of a processed (hence not excluded) entry
of the listing. -/
theorem opsOf_paths (ign : List Str → Bool) (root : List Str) :
    ∀ (n : Nat) (entries : List (Str × Node)) (q : List Str),
      sizeOf entries ≤ n →
      ∀ op ∈ opsOf ign root (root ++ q) entries,
        ∃ name node rest', (name, node) ∈ entries ∧
          ¬(name = ".git".data ∨ name = "changelog".data) ∧
          opPath op = q ++ name :: rest' := by
  intro n
  induction n with
  | zero =>
    intro entries q hsize
    exfalso
    cases entries with
    | nil => simp at hsize
    | cons e rest => simp [List.cons.sizeOf_spec] at hsize
  | succ n ih =>
    intro entries q hsize op hop
    cases entries with
    | nil => simp [opsOf] at hop
    | cons e rest =>
      obtain ⟨name, node⟩ := e
      have hrest : sizeOf rest ≤ n := by
        simp only [List.cons.sizeOf_spec, Prod.mk.sizeOf_spec] at hsize
        omega
      have hstrip : relativeTo root (root ++ (q ++ [name])) = some (q ++ [name]) :=
        relativeTo_append root (q ++ [name])
      cases node with
      | file content =>
        by_cases hskip : name = ".git".data ∨ name = "changelog".data
        · simp only [opsOf] at hop
          rw [if_pos hskip] at hop
          obtain ⟨nm, nd, r', hmem, hne, hpath⟩ := ih rest q hrest op hop
          exact ⟨nm, nd, r', by simp [hmem], hne, hpath⟩
        · simp only [opsOf] at hop
          rw [if_neg hskip, List.append_assoc root q [name]] at hop
          simp only [hstrip] at hop
          by_cases hign : ign (q ++ [name]) = true
          · rw [if_pos hign] at hop
            obtain ⟨nm, nd, r', hmem, hne, hpath⟩ := ih rest q hrest op hop
            exact ⟨nm, nd, r', by simp [hmem], hne, hpath⟩
          · rw [if_neg hign] at hop
            rcases List.mem_cons.mp hop with h | h
            · exact ⟨name, .file content, [], by simp, hskip, by rw [h]; rfl⟩
            · obtain ⟨nm, nd, r', hmem, hne, hpath⟩ := ih rest q hrest op h
              exact ⟨nm, nd, r', by simp [hmem], hne, hpath⟩
      | dir inner =>
        have hinner : sizeOf inner ≤ n := by
          simp only [List.cons.sizeOf_spec, Prod.mk.sizeOf_spec,
            Node.dir.sizeOf_spec] at hsize
          omega
        by_cases hskip : name = ".git".data ∨ name = "changelog".data
        · simp only [opsOf] at hop
          rw [if_pos hskip] at hop
          obtain ⟨nm, nd, r', hmem, hne, hpath⟩ := ih rest q hrest op hop
          exact ⟨nm, nd, r', by simp [hmem], hne, hpath⟩
        · simp only [opsOf] at hop
          rw [if_neg hskip, List.append_assoc root q [name]] at hop
          simp only [hstrip] at hop
          by_cases hign : ign (q ++ [name]) = true
          · rw [if_pos hign] at hop
            obtain ⟨nm, nd, r', hmem, hne, hpath⟩ := ih rest q hrest op hop
            exact ⟨nm, nd, r', by simp [hmem], hne, hpath⟩
          · rw [if_neg hign] at hop
            rcases List.mem_cons.mp hop with h | h
            · exact ⟨name, .dir inner, [], by simp, hskip, by rw [h]; rfl⟩
            · rcases List.mem_append.mp h with h' | h'
              · obtain ⟨nm, nd, r', _, _, hpath⟩ :=
                  ih inner (q ++ [name]) hinner op h'
                refine ⟨name, .dir inner, nm :: r', by simp, hskip, ?_⟩
                rw [hpath, List.append_assoc]
                rfl
              · obtain ⟨nm, nd, r', hmem, hne, hpath⟩ := ih rest q hrest op h'
                exact ⟨nm, nd, r', by simp [hmem], hne, hpath⟩

/-- A directory recorded by a step sequence is the path of one of its
steps. -/
theorem mem_mkdirPaths : ∀ (w : List MirrorOp) (p : List Str),
    p ∈ mkdirPaths w → ∃ op ∈ w, opPath op = p := by
  intro w
  induction w with
  | nil => intro p h; simp [mkdirPaths] at h
  | cons op ops ih =>
    intro p h
    cases op with
    | mkdirOp q =>
      rcases List.mem_cons.mp h with h' | h'
      · exact ⟨.mkdirOp q, by simp, h'.symm⟩
      · obtain ⟨op', hmem, hp⟩ := ih p h'
        exact ⟨op', by simp [hmem], hp⟩
    | copyOp k c =>
      obtain ⟨op', hmem, hp⟩ := ih p h
      exact ⟨op', by simp [hmem], hp⟩

/-- A file content recorded by a step sequence comes from one of its
steps. -/
theorem lastCopy_mem : ∀ (w : List MirrorOp) (p : List Str) (c : Str),
    lastCopy p w = some c → ∃ op ∈ w, opPath op = p := by
  intro w
  induction w with
  | nil => intro p c h; simp [lastCopy] at h
  | cons op ops ih =>
    intro p c h
    cases op with
    | mkdirOp q =>
      rw [lastCopy] at h
      obtain ⟨op', hmem, hp⟩ := ih p c h
      exact ⟨op', by simp [hmem], hp⟩
    | copyOp k c' =>
      rw [lastCopy] at h
      cases hl : lastCopy p ops with
      | some v =>
        obtain ⟨op', hmem, hp⟩ := ih p v hl
        exact ⟨op', by simp [hmem], hp⟩
      | none =>
        rw [hl] at h
        by_cases hk : k = p
        · exact ⟨.copyOp k c', by simp, hk⟩
        · rw [show orD none (if k = p then some c' else none) = none from by
            rw [if_neg hk]; rfl] at h
          exact absurd h (by simp)

/-- Split never returns an empty list of chunks. -/
theorem splitOnChar_ne_nil (sep : Char) : ∀ s : Str, splitOnChar sep s ≠ [] := by
  intro s
  cases s with
  | nil => simp [splitOnChar]
  | cons c rest =>
    rw [splitOnChar]
    by_cases hc : c = sep
    · rw [if_pos hc]; simp
    · rw [if_neg hc]
      cases splitOnChar sep rest <;> simp

/-- The number of chunks is one more than the number of separators. -/
theorem splitOnChar_length (sep : Char) : ∀ s : Str,
    (splitOnChar sep s).length = s.count sep + 1 := by
  intro s
  induction s with
  | nil => simp [splitOnChar]
  | cons c rest ih =>
    rw [splitOnChar]
    by_cases hc : c = sep
    · rw [if_pos hc]
      simp only [List.length_cons, ih, List.count_cons]
      simp [hc]
    · rw [if_neg hc]
      cases hsp : splitOnChar sep rest with
      | nil => exact absurd hsp (splitOnChar_ne_nil sep rest)
      | cons s ss =>
        rw [hsp] at ih
        simp only [List.length_cons] at ih
        simp only [List.length_cons, List.count_cons]
        simp [hc, ih]

/-- A successful `parse_config` drew every field from a matching segment. -/
theorem parse_config_fields (text : Str) (l : List Str) (lf' : LogFile) (cfg : Config)
    (h : parse_config (some l) text = .ok (lf', some cfg)) :
    (∃ s ∈ splitOnChar ',' text, segWf s = true ∧
       segKey s = "participant_id".data ∧ cfg.participant_id = segVal s) ∧
    (∃ s ∈ splitOnChar ',' text, segWf s = true ∧
       segKey s = "git_password".data ∧ cfg.git_password = segVal s) ∧
    (∃ s ∈ splitOnChar ',' text, segWf s = true ∧
       segKey s = "project".data ∧ cfg.project = segVal s) := by
  rw [parse_config] at h
  cases hloop : parseLoop (some l) none none none (splitOnChar ',' text) with
  | error e => rw [hloop] at h; simp at h
  | ok pr =>
    obtain ⟨lf0, r0⟩ := pr
    rw [hloop] at h
    cases r0 with
    | none => simp at h
    | some st =>
      obtain ⟨id, pwd, proj⟩ := st
      cases id with
      | none => cases lf0 <;> simp [log] at h
      | some a =>
        cases pwd with
        | none => cases lf0 <;> simp [log] at h
        | some b =>
          cases proj with
          | none => cases lf0 <;> simp [log] at h
          | some c =>
            have hcfg : cfg = ⟨a, b, c⟩ := by
              simp only [Except.ok.injEq, Prod.mk.injEq, Option.some.injEq] at h
              exact h.2.symm
            have hf := parseLoop_fields (splitOnChar ',' text) (some l)
              none none none lf0 (some a) (some b) (some c) hloop
            subst hcfg
            refine ⟨?_, ?_, ?_⟩
            · rcases hf.1 with h1 | ⟨s, hs, hw, hk, hv⟩
              · exact absurd h1 (by simp)
              · exact ⟨s, hs, hw, hk, by simpa using hv⟩
            · rcases hf.2.1 with h1 | ⟨s, hs, hw, hk, hv⟩
              · exact absurd h1 (by simp)
              · exact ⟨s, hs, hw, hk, by simpa using hv⟩
            · rcases hf.2.2 with h1 | ⟨s, hs, hw, hk, hv⟩
              · exact absurd h1 (by simp)
              · exact ⟨s, hs, hw, hk, by simpa using hv⟩

/-- C1: `parse_config` is total and deterministic: with a sink present it
never panics, and it either returns `None` or a `Config` whose three fields
are the trimmed values of segments of the input whose trimmed keys are the
three recognized keys — never a partially or foreign-populated success
(determinism is inherent: the embedding is a function of the input). -/
theorem parse_config_total_and_sound (text : Str) (l : List Str) :
    ∃ lf' r, parse_config (some l) text = .ok (some lf', r) ∧
      ∀ cfg, r = some cfg →
        (∃ s ∈ splitOnChar ',' text, segWf s = true ∧
           segKey s = "participant_id".data ∧ cfg.participant_id = segVal s) ∧
        (∃ s ∈ splitOnChar ',' text, segWf s = true ∧
           segKey s = "git_password".data ∧ cfg.git_password = segVal s) ∧
        (∃ s ∈ splitOnChar ',' text, segWf s = true ∧
           segKey s = "project".data ∧ cfg.project = segVal s) := by
  obtain ⟨l', r, h⟩ := parse_config_total_aux text l
  refine ⟨l', r, h, ?_⟩
  intro cfg hr
  subst hr
  exact parse_config_fields text l (some l') cfg h

/-- C1 witness: the spec's own example input. -/
theorem parse_config_total_and_sound_witness :
    ∃ lf' r, parse_config (some [])
        "participant_id: 592089, git_password: 985613, project: p1".data
        = .ok (some lf', r) ∧
      ∀ cfg, r = some cfg →
        (∃ s ∈ splitOnChar ','
             "participant_id: 592089, git_password: 985613, project: p1".data,
           segWf s = true ∧
           segKey s = "participant_id".data ∧ cfg.participant_id = segVal s) ∧
        (∃ s ∈ splitOnChar ','
             "participant_id: 592089, git_password: 985613, project: p1".data,
           segWf s = true ∧
           segKey s = "git_password".data ∧ cfg.git_password = segVal s) ∧
        (∃ s ∈ splitOnChar ','
             "participant_id: 592089, git_password: 985613, project: p1".data,
           segWf s = true ∧
           segKey s = "project".data ∧ cfg.project = segVal s) :=
  parse_config_total_and_sound
    "participant_id: 592089, git_password: 985613, project: p1".data []

/-- C2 counterexample: `parse_config` splits each comma-segment on EVERY
colon (`elt.split(':').collect()`), not on the first one, so the input
whose `project` value contains an extra colon is rejected (result `None`
with the two diagnostics logged), where the claim predicts success. -/
theorem parse_config_extra_colon_fails_cx :
    parse_config (some [])
        "participant_id: 592089, git_password: 985613, project: a:b".data
      = .ok (some ["failed to parse config.txt".data, " project: a:b".data], none) := rfl

/-- C2 (amended): a comma-segment is accepted as a key/value pair only when
splitting on every colon yields exactly two parts; whenever some segment
does not split into exactly two parts the whole parse returns `None` (a
parse with all segments well-formed can still return `None` for a missing
required key).  In particular an input in which some segment's value
contains an additional colon (e.g. `project: a:b`) fails to parse. -/
theorem parse_config_segment_two_parts (text : Str) (l : List Str)
    (h : ∃ seg ∈ splitOnChar ',' text, (splitOnChar ':' seg).length ≠ 2) :
    ∃ lf', parse_config (some l) text = .ok (some lf', none) := by
  apply parse_config_none_of_bad
  obtain ⟨s, hs, hlen⟩ := h
  refine ⟨s, hs, ?_⟩
  simpa [segWf, segParts] using hlen

/-- C2 witness: the extra-colon input satisfies the hypothesis and fails. -/
theorem parse_config_segment_two_parts_witness :
    (∃ seg ∈ splitOnChar ','
        "participant_id: 592089, git_password: 985613, project: a:b".data,
      (splitOnChar ':' seg).length ≠ 2) ∧
    ∃ lf', parse_config (some [])
        "participant_id: 592089, git_password: 985613, project: a:b".data
      = .ok (some lf', none) :=
  ⟨⟨" project: a:b".data, by decide, by decide⟩,
   parse_config_segment_two_parts
     "participant_id: 592089, git_password: 985613, project: a:b".data []
     ⟨" project: a:b".data, by decide, by decide⟩⟩

/-- C3: a comma-segment with no colon, or with more than one colon, makes
`parse_config` return `None`, no matter what well-formed pairs (including
all three required keys) surround it. -/
theorem parse_config_malformed_segment (text : Str) (l : List Str) (seg : Str)
    (hmem : seg ∈ splitOnChar ',' text)
    (hbad : seg.count ':' = 0 ∨ 1 < seg.count ':') :
    ∃ lf', parse_config (some l) text = .ok (some lf', none) := by
  apply parse_config_none_of_bad
  refine ⟨seg, hmem, ?_⟩
  have hlen : (splitOnChar ':' seg).length = seg.count ':' + 1 :=
    splitOnChar_length ':' seg
  have hne : (splitOnChar ':' seg).length ≠ 2 := by omega
  simpa [segWf, segParts] using hne

/-- C3 witness: the spec's example with the colon-free trailing `oops`
segment, the three required keys present and well-formed. -/
theorem parse_config_malformed_segment_witness :
    (" oops".data ∈ splitOnChar ','
      "participant_id: 592089, git_password: 985613, project: p1, extra: value, oops".data) ∧
    ((" oops".data.count ':' = 0 ∨ 1 < " oops".data.count ':')) ∧
    ∃ lf', parse_config (some [])
        "participant_id: 592089, git_password: 985613, project: p1, extra: value, oops".data
      = .ok (some lf', none) :=
  ⟨by decide, Or.inl (by decide),
   parse_config_malformed_segment
     "participant_id: 592089, git_password: 985613, project: p1, extra: value, oops".data
     [] " oops".data (by decide) (Or.inl (by decide))⟩

/-- `foldl_stepPure_proj` at the parser's initial state. -/
theorem foldl_stepPure_none (l : List Str) :
    l.foldl stepPure (none, none, none) =
      (l.foldl (updField "participant_id".data) none,
       l.foldl (updField "git_password".data) none,
       l.foldl (updField "project".data) none) :=
  foldl_stepPure_proj l (none, none, none)

/-- C4: on a well-formed input containing each required key exactly once
(in any position, interspersed with arbitrary well-formed unrecognized
pairs), `parse_config` succeeds, and any permutation of the comma-segments
parses to the very same `Config`, whose fields are the whitespace-trimmed
values of the segments carrying the required keys. -/
theorem parse_config_key_order_irrelevant (text₁ text₂ : Str) (l₁ l₂ : List Str)
    (hperm : (splitOnChar ',' text₁).Perm (splitOnChar ',' text₂))
    (hwf : ∀ s ∈ splitOnChar ',' text₁, segWf s = true)
    (hid : (splitOnChar ',' text₁).countP
      (fun s => segKey s == "participant_id".data) = 1)
    (hpwd : (splitOnChar ',' text₁).countP
      (fun s => segKey s == "git_password".data) = 1)
    (hproj : (splitOnChar ',' text₁).countP
      (fun s => segKey s == "project".data) = 1) :
    ∃ cfg : Config,
      parse_config (some l₁) text₁ = .ok (some l₁, some cfg) ∧
      parse_config (some l₂) text₂ = .ok (some l₂, some cfg) ∧
      ∀ s ∈ splitOnChar ',' text₁,
        (segKey s = "participant_id".data → cfg.participant_id = segVal s) ∧
        (segKey s = "git_password".data → cfg.git_password = segVal s) ∧
        (segKey s = "project".data → cfg.project = segVal s) := by
  obtain ⟨x1, hx1, hpx1⟩ := List.countP_pos_iff.mp (by rw [hid]; omega)
  obtain ⟨x2, hx2, hpx2⟩ := List.countP_pos_iff.mp (by rw [hpwd]; omega)
  obtain ⟨x3, hx3, hpx3⟩ := List.countP_pos_iff.mp (by rw [hproj]; omega)
  have hk1 : segKey x1 = "participant_id".data := by simpa using hpx1
  have hk2 : segKey x2 = "git_password".data := by simpa using hpx2
  have hk3 : segKey x3 = "project".data := by simpa using hpx3
  have hwf₂ : ∀ s ∈ splitOnChar ',' text₂, segWf s = true :=
    fun s hs => hwf s (hperm.mem_iff.mpr hs)
  have hid₂ := (hperm.countP_eq (fun s => segKey s == "participant_id".data)) ▸ hid
  have hpwd₂ := (hperm.countP_eq (fun s => segKey s == "git_password".data)) ▸ hpwd
  have hproj₂ := (hperm.countP_eq (fun s => segKey s == "project".data)) ▸ hproj
  have hfold₁ : pureState text₁ = (some (segVal x1), some (segVal x2), some (segVal x3)) := by
    show (splitOnChar ',' text₁).foldl stepPure (none, none, none) = _
    rw [foldl_stepPure_none,
      foldl_updField_of_unique "participant_id".data _ x1 none hid hx1 hk1,
      foldl_updField_of_unique "git_password".data _ x2 none hpwd hx2 hk2,
      foldl_updField_of_unique "project".data _ x3 none hproj hx3 hk3]
  have hfold₂ : pureState text₂ = (some (segVal x1), some (segVal x2), some (segVal x3)) := by
    show (splitOnChar ',' text₂).foldl stepPure (none, none, none) = _
    rw [foldl_stepPure_none,
      foldl_updField_of_unique "participant_id".data _ x1 none hid₂
        (hperm.mem_iff.mp hx1) hk1,
      foldl_updField_of_unique "git_password".data _ x2 none hpwd₂
        (hperm.mem_iff.mp hx2) hk2,
      foldl_updField_of_unique "project".data _ x3 none hproj₂
        (hperm.mem_iff.mp hx3) hk3]
  refine ⟨⟨segVal x1, segVal x2, segVal x3⟩,
    parse_config_ok_of_wf text₁ (some l₁) _ _ _ hwf hfold₁,
    parse_config_ok_of_wf text₂ (some l₂) _ _ _ hwf₂ hfold₂, ?_⟩
  intro s hs
  refine ⟨fun hk => ?_, fun hk => ?_, fun hk => ?_⟩
  · have h1 := foldl_updField_of_unique "participant_id".data
      (splitOnChar ',' text₁) s none hid hs hk
    have h2 := foldl_updField_of_unique "participant_id".data
      (splitOnChar ',' text₁) x1 none hid hx1 hk1
    simpa using (h2.symm.trans h1)
  · have h1 := foldl_updField_of_unique "git_password".data
      (splitOnChar ',' text₁) s none hpwd hs hk
    have h2 := foldl_updField_of_unique "git_password".data
      (splitOnChar ',' text₁) x2 none hpwd hx2 hk2
    simpa using (h2.symm.trans h1)
  · have h1 := foldl_updField_of_unique "project".data
      (splitOnChar ',' text₁) s none hproj hs hk
    have h2 := foldl_updField_of_unique "project".data
      (splitOnChar ',' text₁) x3 none hproj hx3 hk3
    simpa using (h2.symm.trans h1)

/-- C4 witness: a four-pair input with an unrecognized `extra` key and a
rotation of its segments parse to the same `Config`. -/
theorem parse_config_key_order_irrelevant_witness :
    ((splitOnChar ',' "participant_id: 1, git_password: 2, project: p, extra: 9".data).Perm
      (splitOnChar ',' " git_password: 2, project: p, extra: 9,participant_id: 1".data)) ∧
    (∀ s ∈ splitOnChar ',' "participant_id: 1, git_password: 2, project: p, extra: 9".data,
      segWf s = true) ∧
    ∃ cfg : Config,
      parse_config (some [])
          "participant_id: 1, git_password: 2, project: p, extra: 9".data
        = .ok (some [], some cfg) ∧
      parse_config (some [])
          " git_password: 2, project: p, extra: 9,participant_id: 1".data
        = .ok (some [], some cfg) ∧
      ∀ s ∈ splitOnChar ',' "participant_id: 1, git_password: 2, project: p, extra: 9".data,
        (segKey s = "participant_id".data → cfg.participant_id = segVal s) ∧
        (segKey s = "git_password".data → cfg.git_password = segVal s) ∧
        (segKey s = "project".data → cfg.project = segVal s) :=
  ⟨by decide, by decide,
   parse_config_key_order_irrelevant
     "participant_id: 1, git_password: 2, project: p, extra: 9".data
     " git_password: 2, project: p, extra: 9,participant_id: 1".data [] []
     (by decide) (by decide) (by decide) (by decide) (by decide)⟩

/-- C10: `log` with an absent sink panics, and therefore `parse_config`
invoked with no sink panics on any input that its failure path would
reject (malformed segment or missing required key) instead of returning
`None`: the parser's failure path is total only when a sink is present. -/
theorem log_absent_sink_panics (msg text : Str) (l lf' : List Str)
    (h : parse_config (some l) text = .ok (some lf', none)) :
    log none msg = .error "failed to write log".data ∧
    parse_config none text = .error "failed to write log".data :=
  ⟨rfl, parse_config_none_sink_panics text l lf' h⟩

/-- C10 witness: the single-segment input `oops` (no colon) is rejected by
a sink-present parse and panics the sink-free parse. -/
theorem log_absent_sink_panics_witness :
    (parse_config (some []) "oops".data
      = .ok (some ["failed to parse config.txt".data, "oops".data], none)) ∧
    log none "x".data = .error "failed to write log".data ∧
    parse_config none "oops".data = .error "failed to write log".data :=
  ⟨rfl, log_absent_sink_panics "x".data "oops".data []
    ["failed to parse config.txt".data, "oops".data] rfl⟩

/-- C6 counterexample: an entry whose path does not have the source root as
a prefix is not silently skipped — the traversal panics (the line-108
`unwrap` of the failed `strip_prefix`) before the `is_err`/`continue`
check is ever reached. -/
theorem copy_outside_root_panics_cx :
    copyEntries (fun _ => false) ["root".data] ["tmp".data]
        [("x".data, Node.file "c".data)] (some []) ⟨[], []⟩
      = .error "called Result::unwrap on an Err value".data := by
  simp [copyEntries, relativeTo]

/-- C6 (amended): a directory entry (not named `.git` or `changelog`) whose
relative-path computation against the source root fails makes
`copy_files_to_changelog` panic at the `unwrap` that builds the
ignore-check argument; the later `is_err → continue` branch guarding the
second `strip_prefix` is unreachable for such an entry, so the traversal
aborts rather than skipping it. -/
theorem copy_outside_root_panics (ign : List Str → Bool) (root dirPath : List Str)
    (name : Str) (node : Node) (rest : List (Str × Node)) (lf : LogFile) (d : Dest)
    (hname : ¬(name = ".git".data ∨ name = "changelog".data))
    (hstrip : relativeTo root (dirPath ++ [name]) = none) :
    copyEntries ign root dirPath ((name, node) :: rest) lf d
      = .error "called Result::unwrap on an Err value".data := by
  cases node with
  | file content =>
    simp only [copyEntries]
    rw [if_neg hname]
    simp only [hstrip]
  | dir inner =>
    simp only [copyEntries]
    rw [if_neg hname]
    simp only [hstrip]

/-- C6 witness: a concrete entry outside the root panics the traversal. -/
theorem copy_outside_root_panics_witness :
    (¬("f".data = ".git".data ∨ "f".data = "changelog".data)) ∧
    (relativeTo ["m".data] (["other".data] ++ ["f".data]) = none) ∧
    copyEntries (fun _ => true) ["m".data] ["other".data]
        [("f".data, Node.dir [])] none ⟨[], []⟩
      = .error "called Result::unwrap on an Err value".data :=
  ⟨by decide, by decide,
   copy_outside_root_panics (fun _ => true) ["m".data] ["other".data]
     "f".data (Node.dir []) [] none ⟨[], []⟩ (by decide) (by decide)⟩

/-- C8: a mirror run from the source root never produces a destination
entry out of a top-level source entry named `.git` or `changelog`: every
directory or file the run adds to the destination descends from a
top-level entry of the listing whose name is neither. -/
theorem mirror_excludes_top_level (ign : List Str → Bool) (root : List Str)
    (entries : List (Str × Node)) (l : List Str) (lf' : LogFile) (d d' : Dest)
    (p : List Str)
    (hrun : copyEntries ign root root entries (some l) d = .ok (lf', d'))
    (hnew : (p ∈ d'.dirs ∧ p ∉ d.dirs) ∨
            ((findVal p d'.files).isSome ∧ findVal p d.files = none)) :
    ∃ name node rest', (name, node) ∈ entries ∧
      name ≠ ".git".data ∧ name ≠ "changelog".data ∧ p = name :: rest' := by
  obtain ⟨l'', hW⟩ := copyEntries_root ign root entries l d
  rw [hW] at hrun
  have hd' : d' = applyOps d (opsOf ign root root entries) := by
    simp only [Except.ok.injEq, Prod.mk.injEq] at hrun
    exact hrun.2.symm
  subst hd'
  have hop : ∃ op ∈ opsOf ign root root entries, opPath op = p := by
    rcases hnew with ⟨hmem, hnot⟩ | ⟨hsome, hnone⟩
    · rw [mem_dirs_applyOps] at hmem
      rcases hmem with hmk | hd
      · exact mem_mkdirPaths _ p hmk
      · exact absurd hd hnot
    · rw [findVal_applyOps] at hsome
      cases hl : lastCopy p (opsOf ign root root entries) with
      | none =>
        rw [hl, show orD none (findVal p d.files) = findVal p d.files from rfl,
          hnone] at hsome
        simp at hsome
      | some c => exact lastCopy_mem _ p c hl
  obtain ⟨op, hopmem, hpath⟩ := hop
  obtain ⟨name, node, rest', hmem, hne, hp⟩ :=
    opsOf_paths ign root (sizeOf entries) entries [] (le_refl _) op
      (by simpa using hopmem)
  push_neg at hne
  exact ⟨name, node, rest', hmem, hne.1, hne.2, by simpa using hpath.symm.trans hp⟩

/-- C8 witness: with `.git` and `changelog` present at the top level, the
run only produces entries under `src`. -/
theorem mirror_excludes_top_level_witness :
    (copyEntries (fun _ => false) [] []
        [(".git".data, Node.dir []),
         ("src".data, Node.dir [("main.rs".data, Node.file "fn".data)]),
         ("changelog".data, Node.dir [])] (some []) ⟨[], []⟩
      = .ok (some [pathMsg ["src".data], pathMsg ["src".data, "main.rs".data]],
             ⟨[["src".data]], [(["src".data, "main.rs".data], "fn".data)]⟩)) ∧
    ((["src".data] ∈ (⟨[["src".data]],
        [(["src".data, "main.rs".data], "fn".data)]⟩ : Dest).dirs ∧
      ["src".data] ∉ (⟨[], []⟩ : Dest).dirs) ∨
     ((findVal ["src".data] (⟨[["src".data]],
         [(["src".data, "main.rs".data], "fn".data)]⟩ : Dest).files).isSome ∧
      findVal ["src".data] (⟨[], []⟩ : Dest).files = none)) ∧
    ∃ name node rest',
      (name, node) ∈ [(".git".data, Node.dir []),
         ("src".data, Node.dir [("main.rs".data, Node.file "fn".data)]),
         ("changelog".data, Node.dir [])] ∧
      name ≠ ".git".data ∧ name ≠ "changelog".data ∧
      ["src".data] = name :: rest' := by
  have hrun : copyEntries (fun _ => false) [] []
      [(".git".data, Node.dir []),
       ("src".data, Node.dir [("main.rs".data, Node.file "fn".data)]),
       ("changelog".data, Node.dir [])] (some []) ⟨[], []⟩
      = .ok (some [pathMsg ["src".data], pathMsg ["src".data, "main.rs".data]],
             ⟨[["src".data]], [(["src".data, "main.rs".data], "fn".data)]⟩) := by
    simp [copyEntries, relativeTo, log, Dest.createDir, Dest.writeFile, assocPut]
  refine ⟨hrun, Or.inl ⟨by decide, by decide⟩, ?_⟩
  exact mirror_excludes_top_level (fun _ => false) [] _ [] _ ⟨[], []⟩ _ ["src".data]
    hrun (Or.inl ⟨by decide, by decide⟩)

/-- C9: mirroring is idempotent — two consecutive runs over an unchanged
source tree leave the destination with exactly the directories and the
file bytes of a single run. -/
theorem mirror_idempotent (ign : List Str → Bool) (root : List Str)
    (entries : List (Str × Node)) (l₁ l₂ : List Str) (d₀ d₁ d₂ : Dest)
    (lf₁ lf₂ : LogFile) (p : List Str)
    (h₁ : copyEntries ign root root entries (some l₁) d₀ = .ok (lf₁, d₁))
    (h₂ : copyEntries ign root root entries (some l₂) d₁ = .ok (lf₂, d₂)) :
    findVal p d₂.files = findVal p d₁.files ∧ (p ∈ d₂.dirs ↔ p ∈ d₁.dirs) := by
  obtain ⟨la, hA⟩ := copyEntries_root ign root entries l₁ d₀
  rw [hA] at h₁
  have hd₁ : d₁ = applyOps d₀ (opsOf ign root root entries) := by
    simp only [Except.ok.injEq, Prod.mk.injEq] at h₁
    exact h₁.2.symm
  obtain ⟨lb, hB⟩ := copyEntries_root ign root entries l₂ d₁
  rw [hB] at h₂
  have hd₂ : d₂ = applyOps d₁ (opsOf ign root root entries) := by
    simp only [Except.ok.injEq, Prod.mk.injEq] at h₂
    exact h₂.2.symm
  subst hd₂
  subst hd₁
  constructor
  · rw [findVal_applyOps p (opsOf ign root root entries)
        (applyOps d₀ (opsOf ign root root entries)),
      findVal_applyOps p (opsOf ign root root entries) d₀]
    cases lastCopy p (opsOf ign root root entries) <;> rfl
  · rw [mem_dirs_applyOps p (opsOf ign root root entries)
        (applyOps d₀ (opsOf ign root root entries)),
      mem_dirs_applyOps p (opsOf ign root root entries) d₀]
    tauto

/-- C9 witness: two runs over a one-file tree; the second leaves the
destination of the first unchanged. -/
theorem mirror_idempotent_witness :
    (copyEntries (fun _ => false) [] [] [("a.rs".data, Node.file "x".data)]
        (some []) ⟨[], []⟩
      = .ok (some [pathMsg ["a.rs".data]], ⟨[], [(["a.rs".data], "x".data)]⟩)) ∧
    (copyEntries (fun _ => false) [] [] [("a.rs".data, Node.file "x".data)]
        (some []) ⟨[], [(["a.rs".data], "x".data)]⟩
      = .ok (some [pathMsg ["a.rs".data]], ⟨[], [(["a.rs".data], "x".data)]⟩)) ∧
    (findVal ["a.rs".data] (⟨[], [(["a.rs".data], "x".data)]⟩ : Dest).files
       = findVal ["a.rs".data] (⟨[], [(["a.rs".data], "x".data)]⟩ : Dest).files ∧
     (["a.rs".data] ∈ (⟨[], [(["a.rs".data], "x".data)]⟩ : Dest).dirs ↔
      ["a.rs".data] ∈ (⟨[], [(["a.rs".data], "x".data)]⟩ : Dest).dirs)) := by
  have h₁ : copyEntries (fun _ => false) [] [] [("a.rs".data, Node.file "x".data)]
      (some []) ⟨[], []⟩
      = .ok (some [pathMsg ["a.rs".data]], ⟨[], [(["a.rs".data], "x".data)]⟩) := by
    simp [copyEntries, relativeTo, log, Dest.writeFile, assocPut]
  have h₂ : copyEntries (fun _ => false) [] [] [("a.rs".data, Node.file "x".data)]
      (some []) ⟨[], [(["a.rs".data], "x".data)]⟩
      = .ok (some [pathMsg ["a.rs".data]], ⟨[], [(["a.rs".data], "x".data)]⟩) := by
    simp [copyEntries, relativeTo, log, Dest.writeFile, assocPut]
  exact ⟨h₁, h₂,
    mirror_idempotent (fun _ => false) [] [("a.rs".data, Node.file "x".data)]
      [] [] ⟨[], []⟩ _ _ _ _ ["a.rs".data] h₁ h₂⟩

/-- With a present sink the copy/commit/push tail always completes. -/
theorem mainRest_finishes (env : Env) (l : List Str) :
    ∃ d, mainRest env (some l) = .finished d := by
  rw [mainRest]
  simp only [logThen, log]
  obtain ⟨l', hW⟩ := copyEntries_root env.ignored env.manifest_path
    env.manifest_entries (l ++ ["copying files...".data]) env.dest0
  rw [hW]
  exact ⟨_, rfl⟩

/-- A run with an openable sink, readable manifest, parsable configuration
and fresh changelog directory reaches the bootstrap `project` check: it
panics iff `project` is empty and otherwise proceeds to the copy tail. -/
theorem mainModel_run_eq (env : Env) (text a b c : Str)
    (hlog : env.log_openable = true)
    (hman : env.manifest_dir_readable = true)
    (htext : env.config_text = some text)
    (hwf : ∀ s ∈ splitOnChar ',' text, segWf s = true)
    (hst : pureState text = (some a, some b, some c))
    (hfresh : env.changelog_preexists = false) :
    mainModel env =
      if c.length = 0 then .panicked "Project not specified in config.txt".data
      else mainRest env (some ["opened log...".data, "creating directory...".data,
        "project: ".data, c]) := by
  rw [mainModel]
  rw [if_neg (by rw [hlog]; simp)]
  rw [htext]
  simp only [logThen, log, List.nil_append]
  rw [if_neg (by rw [hman]; simp)]
  rw [parse_config_ok_of_wf text _ a b c hwf hst]
  simp only [logThen, log]
  rw [if_neg (by rw [hfresh]; simp)]
  simp only [logThen, log, List.append_assoc, List.singleton_append,
    List.cons_append, List.nil_append]

/-- C5 counterexample: a configuration whose `participant_id` is empty is
not treated as a hard failure — the run proceeds all the way to a finished
mirror (only `project` is ever checked for emptiness). -/
theorem main_empty_participant_proceeds_cx :
    mainModel envEmptyParticipant
      = .finished ⟨[], [(["rustc.version".data], "rustc 1.70.0".data ++ ['\n'])]⟩ := by
  have hp : parse_config (some ["opened log...".data])
      "participant_id:, git_password: x, project: p1".data
      = .ok (some ["opened log...".data], some ⟨[], "x".data, "p1".data⟩) := rfl
  simp [mainModel, mainRest, envEmptyParticipant, logThen, log, hp, copyEntries,
    Dest.writeFile, assocPut]

/-- C5 (amended): after a fresh changelog-directory creation only the
project name is validated for non-emptiness: such a run panics exactly
when `project` is empty; `participant_id` is never validated, so a run
with an empty participant identifier proceeds. -/
theorem main_validates_only_project (env : Env) (text a b c : Str)
    (hlog : env.log_openable = true)
    (hman : env.manifest_dir_readable = true)
    (htext : env.config_text = some text)
    (hwf : ∀ s ∈ splitOnChar ',' text, segWf s = true)
    (hst : pureState text = (some a, some b, some c))
    (hfresh : env.changelog_preexists = false) :
    (mainModel env = .panicked "Project not specified in config.txt".data ↔ c = []) := by
  rw [mainModel_run_eq env text a b c hlog hman htext hwf hst hfresh]
  by_cases hc : c.length = 0
  · rw [if_pos hc]
    simp [List.length_eq_zero.mp hc]
  · rw [if_neg hc]
    obtain ⟨d, hd⟩ := mainRest_finishes env _
    rw [hd]
    constructor
    · intro h
      exact absurd h (by simp)
    · intro h
      subst h
      exact absurd rfl hc

/-- C5 witness: the empty-`project` run panics; all hypotheses concrete. -/
theorem main_validates_only_project_witness :
    (∀ s ∈ splitOnChar ',' "participant_id: 5, git_password: x, project:".data,
      segWf s = true) ∧
    (pureState "participant_id: 5, git_password: x, project:".data
      = (some "5".data, some "x".data, some [])) ∧
    (mainModel envEmptyProject
      = .panicked "Project not specified in config.txt".data ↔ ([] : Str) = []) :=
  ⟨by decide, by decide,
   main_validates_only_project envEmptyProject
     "participant_id: 5, git_password: x, project:".data "5".data "x".data []
     rfl rfl rfl (by decide) (by decide) rfl⟩

/-- C7 counterexample: with the manifest directory unreadable, `main`
returns normally (after `println!`) — it does not panic. -/
theorem main_manifest_unreadable_returns_cx :
    mainModel envManifestUnreadable = .earlyReturn := by
  simp [mainModel, envManifestUnreadable, logThen, log]

/-- C7 (amended): a failed read of the manifest directory makes `main`
print a message and return normally, not panic; the run is abortive
(panics) for an unopenable log sink, and for an empty `project` after a
fresh destination-directory creation. -/
theorem main_abort_modes (env₁ env₂ env₃ : Env) (text a b : Str)
    (h1 : env₁.log_openable = true) (h2 : env₁.manifest_dir_readable = false)
    (h3 : env₂.log_openable = false)
    (h4 : env₃.log_openable = true) (h5 : env₃.manifest_dir_readable = true)
    (h6 : env₃.config_text = some text)
    (h7 : ∀ s ∈ splitOnChar ',' text, segWf s = true)
    (h8 : pureState text = (some a, some b, some []))
    (h9 : env₃.changelog_preexists = false) :
    mainModel env₁ = .earlyReturn ∧
    mainModel env₂ = .panicked "Couldn't open log file for writing".data ∧
    mainModel env₃ = .panicked "Project not specified in config.txt".data := by
  refine ⟨?_, ?_, ?_⟩
  · rw [mainModel, if_neg (by rw [h1]; simp)]
    simp [logThen, log, h2]
  · rw [mainModel, if_pos (by rw [h3])]
  · rw [mainModel_run_eq env₃ text a b [] h4 h5 h6 h7 h8 h9]
    simp

/-- C7 witness: the three environments instantiated concretely. -/
theorem main_abort_modes_witness :
    mainModel envManifestUnreadable = .earlyReturn ∧
    mainModel envNoLogSink = .panicked "Couldn't open log file for writing".data ∧
    mainModel envBlankProject = .panicked "Project not specified in config.txt".data :=
  main_abort_modes envManifestUnreadable envNoLogSink envBlankProject
    "participant_id: 5, git_password: x, project: ".data "5".data "x".data
    rfl rfl rfl rfl rfl rfl (by decide) (by decide) rfl
